import Mathlib

/-!
Verification of the megaTinyCore serial (UART) driver specification
against the code in `src/cores/megatinycore/UART.h`.

The header declares the `UartClass` data model: per-channel RX/TX ring
buffers (`_rx_buffer`/`_tx_buffer` with `_rx_buffer_head`, `_rx_buffer_tail`,
`_tx_buffer_head`, `_tx_buffer_tail`), the power-of-two buffer-size checks,
the inline `printHexln` overloads and `operator bool`.  The bodies of
`write`, `read`, `available`, `_rx_complete_irq`, `_tx_data_empty_irq`
and `_poll_tx_data_empty` live in `UART.cpp`, which is not part of the
sources available here; those operations are modelled from the spec
(each such definition carries a `Modelled from the spec:` doc comment).

Bytes are modelled as `Nat`; buffer indices are `Nat` with explicit
`% cap` wraparound, matching the C unsigned index arithmetic
(`(i + 1) & (SIZE - 1)` with `SIZE` a power of two).
-/

/-- The byte ring buffer of the driver (one per direction per channel):
fixed capacity `cap`, a `storage` map from slot index to byte, `head`
(next slot the producer writes) and `tail` (next slot the consumer reads).
Matches the member block `_rx_buffer_head/_rx_buffer_tail/_rx_buffer`
(resp. TX) of `UartClass` in UART.h lines 239-248. -/
structure RingBuffer where
  cap : Nat
  storage : Nat → Nat
  head : Nat
  tail : Nat

/-- Pointwise update of a storage map, the model of `buf[i] = v`. -/
def upd (f : Nat → Nat) (i v : Nat) : Nat → Nat :=
  fun j => if j = i then v else f j

/-- Well-formedness: positive capacity and in-range indices. -/
def RingBuffer.WF (b : RingBuffer) : Prop :=
  0 < b.cap ∧ b.head < b.cap ∧ b.tail < b.cap

instance (b : RingBuffer) : Decidable b.WF := by
  unfold RingBuffer.WF; infer_instance

/-- Modelled from the spec: `is_empty() -> bool`: `head == tail`
(the body of the buffer test in UART.cpp is not in the sources). -/
def RingBuffer.isEmpty (b : RingBuffer) : Bool :=
  b.head == b.tail

/-- Modelled from the spec: `is_full() -> bool`:
`((head + 1) mod C) == tail` (reserved-slot convention). -/
def RingBuffer.isFull (b : RingBuffer) : Bool :=
  (b.head + 1) % b.cap == b.tail

/-- Modelled from the spec: `available_count() -> integer`:
`(head - tail) mod C`, rendered in unsigned (wraparound) arithmetic as
`(C + head - tail) % C`, which agrees with the mathematical
`(head - tail) mod C` whenever `head, tail < C`. -/
def RingBuffer.availableCount (b : RingBuffer) : Nat :=
  (b.cap + b.head - b.tail) % b.cap

/-- Modelled from the spec: `push(byte) -> bool`: if full, returns failure
and leaves the buffer untouched; else stores the byte at `head` and
advances `head = (head + 1) mod C`. -/
def RingBuffer.push (b : RingBuffer) (x : Nat) : RingBuffer × Bool :=
  if b.isFull then (b, false)
  else ({ b with storage := upd b.storage b.head x,
                 head := (b.head + 1) % b.cap }, true)

/-- Modelled from the spec: `pop() -> Option<byte>`: if empty, returns
none; else reads the byte at `tail`, then advances
`tail = (tail + 1) mod C`. -/
def RingBuffer.pop (b : RingBuffer) : RingBuffer × Option Nat :=
  if b.isEmpty then (b, none)
  else ({ b with tail := (b.tail + 1) % b.cap }, some (b.storage b.tail))

/-- A freshly reset buffer (`begin()` resets both ring buffers to empty):
`head = tail = 0`, storage zeroed. -/
def RingBuffer.mkEmpty (cap : Nat) : RingBuffer :=
  { cap := cap, storage := fun _ => 0, head := 0, tail := 0 }

/-- Abstraction function: the queue of buffered bytes, read from `tail`
forward for `availableCount` slots. -/
def RingBuffer.contents (b : RingBuffer) : List Nat :=
  (List.range b.availableCount).map (fun i => b.storage ((b.tail + i) % b.cap))

/-- Pushing a whole list of bytes in order; the flag is true iff every
push succeeded. -/
def RingBuffer.pushAll : RingBuffer → List Nat → RingBuffer × Bool
  | b, [] => (b, true)
  | b, x :: rest =>
    let p := b.push x
    let r := p.1.pushAll rest
    (r.1, p.2 && r.2)

/-- Popping `n` times, collecting the returned bytes (stopping early on an
empty buffer). -/
def RingBuffer.popN : RingBuffer → Nat → RingBuffer × List Nat
  | b, 0 => (b, [])
  | b, n + 1 =>
    match b.pop with
    | (b', none) => (b', [])
    | (b', some x) =>
      let r := b'.popN n
      (r.1, x :: r.2)

/-- A request against the buffer: either push a given byte or pop. -/
inductive BufOp where
  | pushOp (x : Nat)
  | popOp
  deriving DecidableEq, Repr

/-- Running a list of requests, counting how many pushes and how many pops
succeeded (returned true / returned a byte). -/
def RingBuffer.runOps : RingBuffer → List BufOp → RingBuffer × Nat × Nat
  | b, [] => (b, 0, 0)
  | b, BufOp.pushOp x :: rest =>
    let p := b.push x
    let r := p.1.runOps rest
    (r.1, (if p.2 then 1 else 0) + r.2.1, r.2.2)
  | b, BufOp.popOp :: rest =>
    let p := b.pop
    let r := p.1.runOps rest
    (r.1, r.2.1, (if p.2.isSome then 1 else 0) + r.2.2)

-- Basic modular-arithmetic helpers -------------------------------------

theorem succ_mod_char {a c : Nat} (h : a < c) :
    (a + 1) % c = if a + 1 = c then 0 else a + 1 := by
  split
  · simp_all
  · exact Nat.mod_eq_of_lt (by omega)

theorem count_char {hd tl c : Nat} (hh : hd < c) (ht : tl < c) :
    (c + hd - tl) % c = if tl ≤ hd then hd - tl else c + hd - tl := by
  split
  · have h1 : c + hd - tl = c + (hd - tl) := by omega
    rw [h1, Nat.add_mod_left, Nat.mod_eq_of_lt (by omega)]
  · exact Nat.mod_eq_of_lt (by omega)

theorem slot_inj {c t i j : Nat} (hi : i < c) (hj : j < c)
    (h : (t + i) % c = (t + j) % c) : i = j := by
  have h2 : i ≡ j [MOD c] := Nat.ModEq.add_left_cancel (Nat.ModEq.refl t) h
  have h3 : i % c = j % c := h2
  rwa [Nat.mod_eq_of_lt hi, Nat.mod_eq_of_lt hj] at h3

theorem head_eq_tail_add_count {b : RingBuffer} (hb : b.WF) :
    (b.tail + b.availableCount) % b.cap = b.head := by
  obtain ⟨hc, hh, ht⟩ := hb
  unfold RingBuffer.availableCount
  rw [count_char hh ht]
  split
  · have h1 : b.tail + (b.head - b.tail) = b.head := by omega
    rw [h1, Nat.mod_eq_of_lt hh]
  · have h1 : b.tail + (b.cap + b.head - b.tail) = b.head + b.cap := by omega
    rw [h1, Nat.add_mod_right, Nat.mod_eq_of_lt hh]

theorem availableCount_lt_cap {b : RingBuffer} (hb : b.WF) :
    b.availableCount < b.cap :=
  Nat.mod_lt _ hb.1

theorem isFull_iff_count {b : RingBuffer} (hb : b.WF) :
    b.isFull = true ↔ b.availableCount = b.cap - 1 := by
  obtain ⟨hc, hh, ht⟩ := hb
  unfold RingBuffer.isFull RingBuffer.availableCount
  rw [succ_mod_char hh, count_char hh ht, beq_iff_eq]
  split <;> split <;> omega

theorem isEmpty_iff_count {b : RingBuffer} (hb : b.WF) :
    b.isEmpty = true ↔ b.availableCount = 0 := by
  obtain ⟨hc, hh, ht⟩ := hb
  unfold RingBuffer.isEmpty RingBuffer.availableCount
  rw [count_char hh ht, beq_iff_eq]
  split <;> omega

theorem contents_length (b : RingBuffer) :
    b.contents.length = b.availableCount := by
  simp [RingBuffer.contents]

-- Counting lemmas for index advance ------------------------------------

theorem count_after_push {cap hd tl : Nat} (hh : hd < cap) (ht : tl < cap)
    (hlt : (cap + hd - tl) % cap < cap - 1) :
    (cap + (hd + 1) % cap - tl) % cap = (cap + hd - tl) % cap + 1 := by
  have h0 : 0 < cap := by omega
  rw [count_char hh ht] at hlt
  rw [count_char hh ht, succ_mod_char hh]
  split
  · rw [count_char h0 ht]
    split_ifs at hlt ⊢ <;> omega
  · rw [count_char (by omega) ht]
    split_ifs at hlt ⊢ <;> omega

theorem count_after_pop {cap hd tl : Nat} (hh : hd < cap) (ht : tl < cap)
    (hpos : 0 < (cap + hd - tl) % cap) :
    (cap + hd - (tl + 1) % cap) % cap + 1 = (cap + hd - tl) % cap := by
  have h0 : 0 < cap := by omega
  rw [count_char hh ht] at hpos
  rw [count_char hh ht, succ_mod_char ht]
  split
  · rw [count_char hh h0]
    split_ifs at hpos ⊢ <;> omega
  · rw [count_char hh (by omega)]
    split_ifs at hpos ⊢ <;> omega

-- Simulation lemmas: push and pop refine list enqueue/dequeue ----------

theorem push_full_eq {b : RingBuffer} (x : Nat) (hf : b.isFull = true) :
    b.push x = (b, false) := by
  unfold RingBuffer.push
  rw [hf]
  rfl

theorem push_spec {b : RingBuffer} (x : Nat) (hb : b.WF)
    (hf : b.isFull = false) :
    (b.push x).2 = true ∧ (b.push x).1.WF ∧ (b.push x).1.cap = b.cap ∧
    (b.push x).1.availableCount = b.availableCount + 1 ∧
    (b.push x).1.contents = b.contents ++ [x] := by
  obtain ⟨hc, hh, ht⟩ := hb
  have hcount : b.availableCount < b.cap - 1 := by
    have h1 := availableCount_lt_cap ⟨hc, hh, ht⟩
    have h2 : b.availableCount ≠ b.cap - 1 := fun h => by
      rw [(isFull_iff_count ⟨hc, hh, ht⟩).2 h] at hf
      exact Bool.true_eq_false.mp hf
    omega
  have hcount' : (b.cap + b.head - b.tail) % b.cap < b.cap - 1 := hcount
  have hpush : b.push x =
      ({ b with storage := upd b.storage b.head x,
                head := (b.head + 1) % b.cap }, true) := by
    unfold RingBuffer.push
    rw [hf]
    rfl
  rw [hpush]
  have hh' : (b.head + 1) % b.cap < b.cap := Nat.mod_lt _ hc
  have hA : (b.tail + (b.cap + b.head - b.tail) % b.cap) % b.cap = b.head :=
    head_eq_tail_add_count ⟨hc, hh, ht⟩
  refine ⟨rfl, ⟨hc, hh', ht⟩, rfl, ?_, ?_⟩
  · show (b.cap + (b.head + 1) % b.cap - b.tail) % b.cap
      = (b.cap + b.head - b.tail) % b.cap + 1
    exact count_after_push hh ht hcount'
  · show (List.range ((b.cap + (b.head + 1) % b.cap - b.tail) % b.cap)).map
        (fun i => upd b.storage b.head x ((b.tail + i) % b.cap)) =
      (List.range ((b.cap + b.head - b.tail) % b.cap)).map
        (fun i => b.storage ((b.tail + i) % b.cap)) ++ [x]
    rw [count_after_push hh ht hcount', List.range_succ, List.map_append]
    congr 1
    · apply List.map_congr_left
      intro i hi
      rw [List.mem_range] at hi
      have hne : (b.tail + i) % b.cap ≠ b.head := by
        intro heq
        rw [← hA] at heq
        have h3 : i = (b.cap + b.head - b.tail) % b.cap :=
          slot_inj (by omega) (by omega : (b.cap + b.head - b.tail) % b.cap < b.cap) heq
        omega
      simp [upd, hne]
    · simp only [List.map_cons, List.map_nil]
      rw [hA]
      simp [upd]

theorem pop_empty_eq {b : RingBuffer} (he : b.isEmpty = true) :
    b.pop = (b, none) := by
  unfold RingBuffer.pop
  rw [he]
  rfl

theorem pop_spec {b : RingBuffer} (hb : b.WF) (he : b.isEmpty = false) :
    b.pop = ({ b with tail := (b.tail + 1) % b.cap }, some (b.storage b.tail)) ∧
    (b.pop).1.WF ∧ (b.pop).1.cap = b.cap ∧
    (b.pop).1.availableCount + 1 = b.availableCount ∧
    b.contents = b.storage b.tail :: (b.pop).1.contents := by
  obtain ⟨hc, hh, ht⟩ := hb
  have hcount : 0 < b.availableCount := by
    have h2 : b.availableCount ≠ 0 := fun h => by
      rw [(isEmpty_iff_count ⟨hc, hh, ht⟩).2 h] at he
      exact Bool.true_eq_false.mp he
    omega
  have hcount' : 0 < (b.cap + b.head - b.tail) % b.cap := hcount
  have hpop : b.pop =
      ({ b with tail := (b.tail + 1) % b.cap }, some (b.storage b.tail)) := by
    unfold RingBuffer.pop
    rw [he]
    rfl
  rw [hpop]
  have ht' : (b.tail + 1) % b.cap < b.cap := Nat.mod_lt _ hc
  have hcnt : (b.cap + b.head - (b.tail + 1) % b.cap) % b.cap + 1
      = (b.cap + b.head - b.tail) % b.cap := count_after_pop hh ht hcount'
  refine ⟨rfl, ⟨hc, hh, ht'⟩, rfl, hcnt, ?_⟩
  show (List.range ((b.cap + b.head - b.tail) % b.cap)).map
      (fun i => b.storage ((b.tail + i) % b.cap)) =
    b.storage b.tail ::
      (List.range ((b.cap + b.head - (b.tail + 1) % b.cap) % b.cap)).map
        (fun i => b.storage (((b.tail + 1) % b.cap + i) % b.cap))
  obtain ⟨n, hn⟩ : ∃ n, (b.cap + b.head - b.tail) % b.cap = n + 1 :=
    ⟨(b.cap + b.head - b.tail) % b.cap - 1, by omega⟩
  have hn2 : (b.cap + b.head - (b.tail + 1) % b.cap) % b.cap = n := by omega
  rw [hn, hn2, List.range_succ_eq_map, List.map_cons, List.map_map]
  congr 1
  · rw [Nat.add_zero, Nat.mod_eq_of_lt ht]
  · apply List.map_congr_left
    intro i _
    show b.storage ((b.tail + (i + 1)) % b.cap) =
      b.storage (((b.tail + 1) % b.cap + i) % b.cap)
    rw [Nat.mod_add_mod]
    have h5 : b.tail + (i + 1) = b.tail + 1 + i := by omega
    rw [h5]

-- Derived facts about the test harness operations ----------------------

theorem not_full_of_count_lt {b : RingBuffer} (hb : b.WF)
    (h : b.availableCount < b.cap - 1) : b.isFull = false := by
  cases hf : b.isFull
  · rfl
  · rw [(isFull_iff_count hb).1 hf] at h
    omega

theorem not_empty_of_count_pos {b : RingBuffer} (hb : b.WF)
    (h : 0 < b.availableCount) : b.isEmpty = false := by
  cases he : b.isEmpty
  · rfl
  · rw [(isEmpty_iff_count hb).1 he] at h
    omega

theorem popN_succ_of_some {b b' : RingBuffer} {y : Nat} (m : Nat)
    (h : b.pop = (b', some y)) :
    b.popN (m + 1) = ((b'.popN m).1, y :: (b'.popN m).2) := by
  simp only [RingBuffer.popN, h]

theorem pushAll_spec (xs : List Nat) : ∀ b : RingBuffer, b.WF →
    b.availableCount + xs.length ≤ b.cap - 1 →
    (b.pushAll xs).2 = true ∧ (b.pushAll xs).1.WF ∧
    (b.pushAll xs).1.cap = b.cap ∧
    (b.pushAll xs).1.availableCount = b.availableCount + xs.length ∧
    (b.pushAll xs).1.contents = b.contents ++ xs := by
  induction xs with
  | nil =>
    intro b hb _
    exact ⟨rfl, hb, rfl, rfl, by simp [RingBuffer.pushAll]⟩
  | cons x rest ih =>
    intro b hb hlen
    rw [List.length_cons] at hlen
    have hf : b.isFull = false := not_full_of_count_lt hb (by omega)
    obtain ⟨hok, hwf, hcap, hcnt, hcon⟩ := push_spec x hb hf
    obtain ⟨rok, rwf, rcap, rcnt, rcon⟩ :=
      ih (b.push x).1 hwf (by rw [hcnt, hcap]; omega)
    refine ⟨?_, rwf, ?_, ?_, ?_⟩
    · show ((b.push x).2 && ((b.push x).1.pushAll rest).2) = true
      rw [hok, rok]
      rfl
    · show ((b.push x).1.pushAll rest).1.cap = b.cap
      rw [rcap, hcap]
    · show ((b.push x).1.pushAll rest).1.availableCount
        = b.availableCount + (x :: rest).length
      rw [rcnt, hcnt, List.length_cons]
      omega
    · show ((b.push x).1.pushAll rest).1.contents = b.contents ++ x :: rest
      rw [rcon, hcon]
      simp

theorem popN_spec (m : Nat) : ∀ b : RingBuffer, b.WF →
    m ≤ b.availableCount →
    (b.popN m).2 = b.contents.take m ∧ (b.popN m).1.WF ∧
    (b.popN m).1.cap = b.cap ∧
    (b.popN m).1.availableCount = b.availableCount - m ∧
    (b.popN m).1.contents = b.contents.drop m := by
  induction m with
  | zero =>
    intro b hb _
    exact ⟨rfl, hb, rfl, rfl, rfl⟩
  | succ m ih =>
    intro b hb hm
    have he : b.isEmpty = false := not_empty_of_count_pos hb (by omega)
    obtain ⟨hpop, hwf, hcap, hcnt, hcon⟩ := pop_spec hb he
    have hstep := popN_succ_of_some m hpop
    have hpop1 : (b.pop).1 = { b with tail := (b.tail + 1) % b.cap } := by
      rw [hpop]
    rw [← hpop1] at hstep
    obtain ⟨rtake, rwf, rcap, rcnt, rcon⟩ := ih (b.pop).1 hwf (by omega)
    rw [hstep]
    refine ⟨?_, rwf, ?_, ?_, ?_⟩
    · show b.storage b.tail :: ((b.pop).1.popN m).2 = b.contents.take (m + 1)
      rw [rtake, hcon]
      rfl
    · show ((b.pop).1.popN m).1.cap = b.cap
      rw [rcap, hcap]
    · show ((b.pop).1.popN m).1.availableCount = b.availableCount - (m + 1)
      rw [rcnt]
      omega
    · show ((b.pop).1.popN m).1.contents = b.contents.drop (m + 1)
      rw [rcon, hcon]
      rfl

theorem runOps_spec (ops : List BufOp) : ∀ b : RingBuffer, b.WF →
    (b.runOps ops).1.WF ∧ (b.runOps ops).1.cap = b.cap ∧
    (b.runOps ops).1.availableCount + (b.runOps ops).2.2 =
      b.availableCount + (b.runOps ops).2.1 := by
  induction ops with
  | nil =>
    intro b hb
    exact ⟨hb, rfl, rfl⟩
  | cons op rest ih =>
    intro b hb
    cases op with
    | pushOp x =>
      cases hf : b.isFull
      · obtain ⟨hok, hwf, hcap, hcnt, _⟩ := push_spec x hb hf
        obtain ⟨rwf, rcap, rcnt⟩ := ih (b.push x).1 hwf
        refine ⟨rwf, ?_, ?_⟩
        · show ((b.push x).1.runOps rest).1.cap = b.cap
          rw [rcap, hcap]
        · show ((b.push x).1.runOps rest).1.availableCount
              + ((b.push x).1.runOps rest).2.2
            = b.availableCount
              + ((if (b.push x).2 then 1 else 0) + ((b.push x).1.runOps rest).2.1)
          rw [hok, if_pos rfl]
          omega
      · have hp := push_full_eq x hf
        obtain ⟨rwf, rcap, rcnt⟩ := ih b hb
        have hp1 : (b.push x).1 = b := by rw [hp]
        have hp2 : (b.push x).2 = false := by rw [hp]
        refine ⟨?_, ?_, ?_⟩
        · show ((b.push x).1.runOps rest).1.WF
          rw [hp1]
          exact rwf
        · show ((b.push x).1.runOps rest).1.cap = b.cap
          rw [hp1]
          exact rcap
        · show ((b.push x).1.runOps rest).1.availableCount
              + ((b.push x).1.runOps rest).2.2
            = b.availableCount
              + ((if (b.push x).2 then 1 else 0) + ((b.push x).1.runOps rest).2.1)
          rw [hp1, hp2, if_neg Bool.false_ne_true]
          omega
    | popOp =>
      cases he : b.isEmpty
      · obtain ⟨hpop, hwf, hcap, hcnt, _⟩ := pop_spec hb he
        obtain ⟨rwf, rcap, rcnt⟩ := ih (b.pop).1 hwf
        have hsome : (b.pop).2.isSome = true := by rw [hpop]; rfl
        refine ⟨rwf, ?_, ?_⟩
        · show ((b.pop).1.runOps rest).1.cap = b.cap
          rw [rcap, hcap]
        · show ((b.pop).1.runOps rest).1.availableCount
              + ((if (b.pop).2.isSome then 1 else 0) + ((b.pop).1.runOps rest).2.2)
            = b.availableCount + ((b.pop).1.runOps rest).2.1
          rw [hsome, if_pos rfl]
          omega
      · have hp := pop_empty_eq he
        obtain ⟨rwf, rcap, rcnt⟩ := ih b hb
        have hp1 : (b.pop).1 = b := by rw [hp]
        have hp2 : (b.pop).2.isSome = false := by rw [hp]; rfl
        refine ⟨?_, ?_, ?_⟩
        · show ((b.pop).1.runOps rest).1.WF
          rw [hp1]
          exact rwf
        · show ((b.pop).1.runOps rest).1.cap = b.cap
          rw [hp1]
          exact rcap
        · show ((b.pop).1.runOps rest).1.availableCount
              + ((if (b.pop).2.isSome then 1 else 0) + ((b.pop).1.runOps rest).2.2)
            = b.availableCount + ((b.pop).1.runOps rest).2.1
          rw [hp1, hp2, if_neg Bool.false_ne_true]
          omega

theorem mkEmpty_wf {cap : Nat} (hc : 0 < cap) : (RingBuffer.mkEmpty cap).WF :=
  ⟨hc, hc, hc⟩

theorem mkEmpty_count (cap : Nat) :
    (RingBuffer.mkEmpty cap).availableCount = 0 := by
  simp [RingBuffer.mkEmpty, RingBuffer.availableCount, Nat.mod_self]

theorem mkEmpty_contents (cap : Nat) :
    (RingBuffer.mkEmpty cap).contents = [] := by
  have h := mkEmpty_count cap
  unfold RingBuffer.contents
  rw [h]
  rfl

-- Claim theorems: ring buffer ------------------------------------------

/-- C1: for every sequence of successful push calls on a ring buffer whose
length does not exceed capacity minus one (starting from an empty buffer,
where they all indeed succeed), performing an equal-length sequence of pop
calls returns exactly the pushed bytes, in the same order (FIFO). -/
theorem fifo_round_trip (cap : Nat) (xs : List Nat) (hc : 0 < cap)
    (hlen : xs.length ≤ cap - 1) :
    ((RingBuffer.mkEmpty cap).pushAll xs).2 = true ∧
    (((RingBuffer.mkEmpty cap).pushAll xs).1.popN xs.length).2 = xs := by
  obtain ⟨hok, hwf, hcap, hcnt, hcon⟩ :=
    pushAll_spec xs (RingBuffer.mkEmpty cap) (mkEmpty_wf hc)
      (by rw [mkEmpty_count]; show 0 + xs.length ≤ cap - 1; omega)
  refine ⟨hok, ?_⟩
  obtain ⟨htake, _, _, _, _⟩ :=
    popN_spec xs.length ((RingBuffer.mkEmpty cap).pushAll xs).1 hwf
      (by rw [hcnt, mkEmpty_count]; omega)
  rw [htake, hcon, mkEmpty_contents]
  simp

/-- Witness for C1: capacity 4, pushing [10, 20, 30] and popping 3 times
returns [10, 20, 30]. -/
theorem fifo_round_trip_witness :
    ((RingBuffer.mkEmpty 4).pushAll [10, 20, 30]).2 = true ∧
    (((RingBuffer.mkEmpty 4).pushAll [10, 20, 30]).1.popN
      ([10, 20, 30] : List Nat).length).2 = [10, 20, 30] :=
  fifo_round_trip 4 [10, 20, 30] (by decide) (by decide)

/-- C4: for every ring-buffer state in which the buffer is full
(reserved-slot convention: (head + 1) mod C == tail), push returns failure
and leaves the buffer byte-for-byte identical to its state before the
call. -/
theorem push_on_full_fails (b : RingBuffer) (x : Nat)
    (hf : b.isFull = true) : b.push x = (b, false) :=
  push_full_eq x hf

/-- Witness for C4: a full capacity-2 buffer rejects a push unchanged. -/
theorem push_on_full_fails_witness :
    (RingBuffer.mk 2 (fun _ => 0) 1 0).isFull = true ∧
    (RingBuffer.mk 2 (fun _ => 0) 1 0).push 7
      = (RingBuffer.mk 2 (fun _ => 0) 1 0, false) :=
  ⟨by decide, push_on_full_fails (RingBuffer.mk 2 (fun _ => 0) 1 0) 7 (by decide)⟩

/-- C5: pop on an empty buffer (head == tail) returns none and does not
advance tail; on a non-empty buffer it returns the byte at tail and
advances tail to (tail + 1) mod C, leaving head and storage unchanged. -/
theorem pop_semantics (b : RingBuffer) :
    (b.isEmpty = true → b.pop = (b, none)) ∧
    (b.isEmpty = false →
      (b.pop).2 = some (b.storage b.tail) ∧
      (b.pop).1.tail = (b.tail + 1) % b.cap ∧
      (b.pop).1.head = b.head ∧ (b.pop).1.cap = b.cap ∧
      (b.pop).1.storage = b.storage) := by
  constructor
  · exact pop_empty_eq
  · intro he
    have hpop : b.pop
        = ({ b with tail := (b.tail + 1) % b.cap }, some (b.storage b.tail)) := by
      unfold RingBuffer.pop
      rw [he]
      rfl
    rw [hpop]
    exact ⟨rfl, rfl, rfl, rfl, rfl⟩

/-- Witness for C5: an empty capacity-4 buffer pops none; a one-byte
buffer pops its byte and advances tail. -/
theorem pop_semantics_witness :
    (RingBuffer.mkEmpty 4).pop = (RingBuffer.mkEmpty 4, none) ∧
    ((RingBuffer.mk 4 (fun _ => 9) 1 0).pop).2 = some 9 ∧
    ((RingBuffer.mk 4 (fun _ => 9) 1 0).pop).1.tail = 1 :=
  ⟨(pop_semantics (RingBuffer.mkEmpty 4)).1 (by decide),
   ((pop_semantics (RingBuffer.mk 4 (fun _ => 9) 1 0)).2 (by decide)).1,
   (((pop_semantics (RingBuffer.mk 4 (fun _ => 9) 1 0)).2 (by decide)).2).1⟩

/-- C6: available_count equals the mathematical (head - tail) mod C, and
starting from an empty buffer, after any operation sequence with N
successful pushes and M successful pops, M ≤ N and available_count is
exactly N - M. -/
theorem available_count_correct :
    (∀ b : RingBuffer, b.WF →
      (b.availableCount : Int) = ((b.head : Int) - (b.tail : Int)) % (b.cap : Int)) ∧
    (∀ (cap : Nat) (ops : List BufOp), 0 < cap →
      ((RingBuffer.mkEmpty cap).runOps ops).2.2
          ≤ ((RingBuffer.mkEmpty cap).runOps ops).2.1 ∧
      ((RingBuffer.mkEmpty cap).runOps ops).1.availableCount
        = ((RingBuffer.mkEmpty cap).runOps ops).2.1
          - ((RingBuffer.mkEmpty cap).runOps ops).2.2) := by
  constructor
  · intro b hb
    obtain ⟨hc, hh, ht⟩ := hb
    show (((b.cap + b.head - b.tail) % b.cap : Nat) : Int)
      = ((b.head : Int) - (b.tail : Int)) % (b.cap : Int)
    have h0 : (((b.cap + b.head - b.tail) % b.cap : Nat) : Int)
        = ((b.cap + b.head - b.tail : Nat) : Int) % ((b.cap : Nat) : Int) := by
      exact_mod_cast rfl
    have h1 : ((b.cap + b.head - b.tail : Nat) : Int)
        = (b.cap : Int) + (b.head : Int) - (b.tail : Int) := by
      omega
    have h2 : (b.cap : Int) + (b.head : Int) - (b.tail : Int)
        = ((b.head : Int) - (b.tail : Int)) + (b.cap : Int) * 1 := by
      ring
    rw [h0, h1, h2, Int.add_mul_emod_self_left]
  · intro cap ops hc
    obtain ⟨rwf, rcap, rcnt⟩ := runOps_spec ops (RingBuffer.mkEmpty cap) (mkEmpty_wf hc)
    rw [mkEmpty_count] at rcnt
    omega

/-- Witness for C6: a wrapped buffer (head 1, tail 3, capacity 4) has
count (1 - 3) mod 4 = 2, and pushing twice then popping once from empty
leaves count 2 - 1 = 1. -/
theorem available_count_correct_witness :
    (((RingBuffer.mk 4 (fun _ => 0) 1 3).availableCount : Int)
      = ((1 : Int) - (3 : Int)) % (4 : Int)) ∧
    (((RingBuffer.mkEmpty 4).runOps [BufOp.pushOp 7, BufOp.pushOp 8, BufOp.popOp]).2.2
        ≤ ((RingBuffer.mkEmpty 4).runOps [BufOp.pushOp 7, BufOp.pushOp 8, BufOp.popOp]).2.1 ∧
      ((RingBuffer.mkEmpty 4).runOps [BufOp.pushOp 7, BufOp.pushOp 8, BufOp.popOp]).1.availableCount
        = ((RingBuffer.mkEmpty 4).runOps [BufOp.pushOp 7, BufOp.pushOp 8, BufOp.popOp]).2.1
          - ((RingBuffer.mkEmpty 4).runOps [BufOp.pushOp 7, BufOp.pushOp 8, BufOp.popOp]).2.2) :=
  ⟨available_count_correct.1 (RingBuffer.mk 4 (fun _ => 0) 1 3) (by decide),
   available_count_correct.2 4 [BufOp.pushOp 7, BufOp.pushOp 8, BufOp.popOp] (by decide)⟩

-- Serial channel driver model ------------------------------------------

/-- The serial channel state, from the `UartClass` data model in UART.h:
the enabled/half-duplex bits of `_state`, the RX and TX ring buffers, the
armed/disarmed state of the transmit-data-empty (DRE) interrupt, and (for
the simulation of the hardware) the log `txSink` of bytes handed to the
hardware shift register. -/
structure UartState where
  enabled : Bool
  rxSuppressed : Bool
  dreEnabled : Bool
  rxBuf : RingBuffer
  txBuf : RingBuffer
  txSink : List Nat

/-- Modelled from the spec: the transmit-data-empty interrupt handler
(`_tx_data_empty_irq`, body in UART.cpp, not in the sources): if the TX
buffer is non-empty, pops one byte and writes it to the hardware transmit
register (logged in `txSink`); if the TX buffer is now empty, disables
the transmit-data-empty interrupt. -/
def UartState.tx_data_empty_irq (s : UartState) : UartState :=
  if s.txBuf.isEmpty then { s with dreEnabled := false }
  else
    { s with txBuf := (s.txBuf.pop).1,
             txSink := s.txSink ++ [s.txBuf.storage s.txBuf.tail],
             dreEnabled := if (s.txBuf.pop).1.isEmpty then false else s.dreEnabled }

/-- Modelled from the spec: the receive-complete interrupt handler
(`_rx_complete_irq`, body in UART.cpp, not in the sources): reads the
received byte from hardware and, if half-duplex suppression is not
active, attempts a push into the RX buffer; a failed push (buffer full)
drops the byte, leaving the buffer untouched. -/
def UartState.rx_complete_irq (s : UartState) (x : Nat) : UartState :=
  if s.rxSuppressed then s
  else { s with rxBuf := (s.rxBuf.push x).1 }

/-- Modelled from the spec: `write(byte)` (body in UART.cpp, not in the
sources): if the channel is disabled, returns 0; otherwise, if the TX
ring buffer is full, busy-waits for one interrupt-driven transmission to
vacate a slot (one `tx_data_empty_irq` step suffices, since a full buffer
is non-empty), then enqueues the byte, arms the transmit-data-empty
interrupt, and returns 1. -/
def UartState.write (s : UartState) (x : Nat) : UartState × Nat :=
  if s.enabled = false then (s, 0)
  else
    let s1 := if s.txBuf.isFull then s.tx_data_empty_irq else s
    ({ s1 with txBuf := (s1.txBuf.push x).1, dreEnabled := true }, 1)

/-- Modelled from the spec: `read()` (body in UART.cpp, not in the
sources): on a disabled channel returns none; otherwise dequeues and
returns the next RX byte, or none if the RX buffer is empty. -/
def UartState.read (s : UartState) : UartState × Option Nat :=
  if s.enabled = false then (s, none)
  else ({ s with rxBuf := (s.rxBuf.pop).1 }, (s.rxBuf.pop).2)

/-- Modelled from the spec: `peek()` (body in UART.cpp, not in the
sources): on a disabled channel returns none; otherwise the next RX byte
without consuming it, or none if empty. -/
def UartState.peek (s : UartState) : Option Nat :=
  if s.enabled = false then none
  else if s.rxBuf.isEmpty then none
  else some (s.rxBuf.storage s.rxBuf.tail)

/-- Modelled from the spec: `available()` (body in UART.cpp, not in the
sources): on a disabled channel returns 0; otherwise the number of bytes
buffered in RX, computed as `available_count()`. -/
def UartState.available (s : UartState) : Nat :=
  if s.enabled = false then 0
  else s.rxBuf.availableCount

/-- Modelled from the spec: `availableForWrite()` (body in UART.cpp, not
in the sources): on a disabled channel returns 0; otherwise the number of
free TX slots (capacity minus one reserved slot minus the bytes
buffered). -/
def UartState.availableForWrite (s : UartState) : Nat :=
  if s.enabled = false then 0
  else s.txBuf.cap - 1 - s.txBuf.availableCount

/-- Embedded from UART.h lines 291-293: `explicit operator bool()
{ return true; }` — the boolean conversion of a channel ignores the
state entirely. -/
def UartState.operatorBool (_s : UartState) : Bool :=
  true

-- Claim theorems: serial channel ---------------------------------------

/-- C2: on an enabled channel, write(byte) never discards the byte: it
returns 1, arms the transmit-data-empty interrupt, and conserves the byte
stream (bytes already transmitted to the sink, followed by the TX buffer
contents, gain exactly the written byte at the end); when the TX buffer
has space, it simply enqueues without touching the sink. -/
theorem write_never_drops (s : UartState) (x : Nat)
    (hen : s.enabled = true) (hwf : s.txBuf.WF) (hcap : 2 ≤ s.txBuf.cap) :
    (s.write x).2 = 1 ∧ (s.write x).1.dreEnabled = true ∧
    (s.write x).1.txSink ++ (s.write x).1.txBuf.contents
      = s.txSink ++ s.txBuf.contents ++ [x] ∧
    (s.txBuf.isFull = false →
      (s.write x).1.txSink = s.txSink ∧
      (s.write x).1.txBuf.contents = s.txBuf.contents ++ [x]) := by
  cases hf : s.txBuf.isFull
  · have hw : s.write x
        = ({ s with txBuf := (s.txBuf.push x).1, dreEnabled := true }, 1) := by
      simp [UartState.write, hen, hf]
    obtain ⟨_, _, _, _, hcon⟩ := push_spec x hwf hf
    rw [hw]
    refine ⟨rfl, rfl, ?_, fun _ => ⟨rfl, hcon⟩⟩
    show s.txSink ++ (s.txBuf.push x).1.contents = s.txSink ++ s.txBuf.contents ++ [x]
    rw [hcon]
    simp
  · have h1 : s.txBuf.availableCount = s.txBuf.cap - 1 := (isFull_iff_count hwf).1 hf
    have hne : s.txBuf.isEmpty = false := not_empty_of_count_pos hwf (by omega)
    obtain ⟨hpop, hwf2, hcap2, hcnt2, hcon2⟩ := pop_spec hwf hne
    have hirq : s.tx_data_empty_irq
        = { s with txBuf := (s.txBuf.pop).1,
                   txSink := s.txSink ++ [s.txBuf.storage s.txBuf.tail],
                   dreEnabled := if (s.txBuf.pop).1.isEmpty then false
                                 else s.dreEnabled } := by
      simp [UartState.tx_data_empty_irq, hne]
    have hw : s.write x
        = ({ s.tx_data_empty_irq with
              txBuf := (s.tx_data_empty_irq.txBuf.push x).1,
              dreEnabled := true }, 1) := by
      simp [UartState.write, hen, hf]
    have hf2 : (s.txBuf.pop).1.isFull = false := by
      apply not_full_of_count_lt hwf2
      rw [hcap2]
      omega
    obtain ⟨_, _, _, _, hcon3⟩ := push_spec x hwf2 hf2
    rw [hw, hirq]
    refine ⟨rfl, rfl, ?_, ?_⟩
    · show (s.txSink ++ [s.txBuf.storage s.txBuf.tail])
          ++ ((s.txBuf.pop).1.push x).1.contents
        = s.txSink ++ s.txBuf.contents ++ [x]
      rw [hcon3, hcon2]
      simp
    · intro h
      simp at h

/-- A concrete enabled channel whose TX ring buffer (capacity 4) is full,
used to exercise the backpressure path of write. -/
def txTestChannel : UartState :=
  ⟨true, false, false, RingBuffer.mkEmpty 4, RingBuffer.mk 4 (fun _ => 5) 3 0, []⟩

/-- Witness for C2: writing to the full-TX channel still returns 1 and
conserves the byte stream. -/
theorem write_never_drops_witness :
    (txTestChannel.write 9).2 = 1 ∧
    (txTestChannel.write 9).1.dreEnabled = true ∧
    (txTestChannel.write 9).1.txSink ++ (txTestChannel.write 9).1.txBuf.contents
      = txTestChannel.txSink ++ txTestChannel.txBuf.contents ++ [9] ∧
    (txTestChannel.txBuf.isFull = false →
      (txTestChannel.write 9).1.txSink = txTestChannel.txSink ∧
      (txTestChannel.write 9).1.txBuf.contents
        = txTestChannel.txBuf.contents ++ [9]) :=
  write_never_drops txTestChannel 9 rfl (by decide) (by decide)

/-- A concrete enabled channel with an empty RX ring buffer of capacity 4
(3 usable slots), as in the overflow scenario of the spec. -/
def rxTestChannel : UartState :=
  ⟨true, false, false, RingBuffer.mkEmpty 4, RingBuffer.mkEmpty 4, []⟩

/-- C3: when the receive-complete handler runs with the RX ring buffer
full (and half-duplex suppression inactive), the newly arrived byte is
discarded and the state is unchanged; concretely, with RX capacity 4
(3 usable slots), delivering 5 bytes before any read retains exactly the
earliest 3 and available() reports 3. -/
theorem rx_overflow_drops_newest :
    (∀ (s : UartState) (x : Nat), s.rxSuppressed = false →
      s.rxBuf.isFull = true → s.rx_complete_irq x = s) ∧
    (∀ b1 b2 b3 b4 b5 : Nat,
      (List.foldl UartState.rx_complete_irq rxTestChannel
        [b1, b2, b3, b4, b5]).rxBuf.contents = [b1, b2, b3] ∧
      (List.foldl UartState.rx_complete_irq rxTestChannel
        [b1, b2, b3, b4, b5]).available = 3) := by
  constructor
  · intro s x hsup hfull
    obtain ⟨en, sup, dre, rx, tx, sink⟩ := s
    have hs : sup = false := hsup
    subst hs
    have hfx : rx.isFull = true := hfull
    simp [UartState.rx_complete_irq, push_full_eq x hfx]
  · intro b1 b2 b3 b4 b5
    constructor
    · simp [List.foldl, UartState.rx_complete_irq, rxTestChannel, RingBuffer.mkEmpty,
            RingBuffer.push, RingBuffer.isFull, RingBuffer.contents,
            RingBuffer.availableCount, upd, List.range_succ]
    · simp [List.foldl, UartState.rx_complete_irq, UartState.available, rxTestChannel,
            RingBuffer.mkEmpty, RingBuffer.push, RingBuffer.isFull,
            RingBuffer.availableCount, upd]

/-- A concrete enabled channel whose RX ring buffer (capacity 4) is full. -/
def fullRxChannel : UartState :=
  ⟨true, false, false, RingBuffer.mk 4 (fun _ => 0) 3 0, RingBuffer.mkEmpty 4, []⟩

/-- Witness for C3: the handler on a full RX buffer drops the byte and
leaves the channel unchanged; 5 concrete bytes into the capacity-4 RX
buffer keep the earliest 3. -/
theorem rx_overflow_drops_newest_witness :
    fullRxChannel.rx_complete_irq 99 = fullRxChannel ∧
    (List.foldl UartState.rx_complete_irq rxTestChannel
      [1, 2, 3, 4, 5]).rxBuf.contents = [1, 2, 3] ∧
    (List.foldl UartState.rx_complete_irq rxTestChannel
      [1, 2, 3, 4, 5]).available = 3 :=
  ⟨rx_overflow_drops_newest.1 fullRxChannel 99 rfl (by decide),
   (rx_overflow_drops_newest.2 1 2 3 4 5).1,
   (rx_overflow_drops_newest.2 1 2 3 4 5).2⟩

/-- C8: every operation on a disabled channel (before begin() or after
end()) returns empty/zero/false rather than faulting; in particular
write(byte) returns 0. -/
theorem disabled_channel_safe (s : UartState) (x : Nat)
    (hds : s.enabled = false) :
    s.write x = (s, 0) ∧ s.read = (s, none) ∧ s.peek = none ∧
    s.available = 0 ∧ s.availableForWrite = 0 := by
  refine ⟨?_, ?_, ?_, ?_, ?_⟩ <;>
    simp [UartState.write, UartState.read, UartState.peek,
          UartState.available, UartState.availableForWrite, hds]

/-- A concrete channel that has not been begun (disabled). -/
def disabledChannel : UartState :=
  ⟨false, false, false, RingBuffer.mkEmpty 4, RingBuffer.mkEmpty 4, []⟩

/-- Witness for C8: all queries on the disabled channel return
empty/zero. -/
theorem disabled_channel_safe_witness :
    disabledChannel.write 7 = (disabledChannel, 0) ∧
    disabledChannel.read = (disabledChannel, none) ∧
    disabledChannel.peek = none ∧
    disabledChannel.available = 0 ∧
    disabledChannel.availableForWrite = 0 :=
  disabled_channel_safe disabledChannel 7 rfl

/-- C9: the boolean conversion operator of a serial channel returns true
unconditionally, for every channel state (enabled or not), so truthiness
of a channel never indicates whether it is enabled. -/
theorem operator_bool_always_true : ∀ s : UartState, s.operatorBool = true :=
  fun _ => rfl

-- Claim theorems: buffer-size power-of-two check and printHexln ---------

/-- Embedded from UART.h lines 129-134: the compile-time construction
check `#if (SERIAL_TX_BUFFER_SIZE & (SERIAL_TX_BUFFER_SIZE - 1))` /
`#error "ERROR: TX buffer size must be a power of two."` (same for RX):
a buffer size is accepted iff `size & (size - 1)` is zero. -/
def bufferSizeAccepted (n : Nat) : Bool :=
  (n &&& (n - 1)) == 0

theorem testBit_eq_true_of_between {n k : Nat} (h1 : 2 ^ k ≤ n)
    (h2 : n < 2 ^ (k + 1)) : n.testBit k = true := by
  rw [Nat.testBit_to_div_mod]
  have hp : 0 < 2 ^ k := Nat.pow_pos (by omega)
  have hdiv : n / 2 ^ k = 1 := by
    apply Nat.div_eq_of_lt_le
    · omega
    · rw [Nat.pow_succ] at h2
      omega
  rw [hdiv]
  rfl

/-- C7: ring-buffer capacity must be a power of two: the construction
check rejects capacity 10, accepts capacity 16, and in general accepts a
positive size exactly when it is a power of two. -/
theorem buffer_size_power_of_two :
    bufferSizeAccepted 10 = false ∧ bufferSizeAccepted 16 = true ∧
    ∀ n : Nat, 0 < n → (bufferSizeAccepted n = true ↔ ∃ k, n = 2 ^ k) := by
  refine ⟨by decide, by decide, ?_⟩
  intro n hn
  unfold bufferSizeAccepted
  rw [beq_iff_eq]
  constructor
  · intro h
    refine ⟨n.log2, ?_⟩
    have h1 : 2 ^ n.log2 ≤ n := Nat.log2_self_le (by omega)
    have h2 : n < 2 ^ (n.log2 + 1) := Nat.lt_log2_self
    by_contra hne
    have h3 : 2 ^ n.log2 < n := by omega
    have hb1 : n.testBit n.log2 = true := testBit_eq_true_of_between h1 h2
    have hb2 : (n - 1).testBit n.log2 = true :=
      testBit_eq_true_of_between (by omega) (by omega)
    have hb3 : (n &&& (n - 1)).testBit n.log2 = true := by
      rw [Nat.testBit_and, hb1, hb2]
      rfl
    rw [h, Nat.zero_testBit] at hb3
    exact Bool.false_ne_true hb3
  · intro hk
    obtain ⟨k, hk⟩ := hk
    subst hk
    rw [Nat.and_pow_two_sub_one_eq_mod, Nat.mod_self]

/-- Witness for C7: instantiating the general power-of-two
characterization at size 16. -/
theorem buffer_size_power_of_two_witness :
    bufferSizeAccepted 16 = true ↔ ∃ k, (16 : Nat) = 2 ^ k :=
  buffer_size_power_of_two.2.2 16 (by decide)

/-- A call emitted by the printHexln helpers of UART.h: which printHex
overload is invoked, with which argument, followed by a println. -/
inductive PrintCall where
  | hex8 (b : Nat)
  | hex16 (w : Nat) (s : Bool)
  | hex32 (l : Nat) (s : Bool)
  | newline
  deriving DecidableEq, Repr

/-- Embedded from UART.h line 273:
`printHexln(const int32_t l, bool s = 0) {printHex((uint16_t)l, s); println();}`.
The 32-bit signed argument, represented here by its unsigned 32-bit
twos-complement bit pattern, is cast to uint16_t — reduced mod 2^16 —
before being forwarded to the 16-bit printHex overload. -/
def printHexln_int32 (l : Nat) (s : Bool) : List PrintCall :=
  [PrintCall.hex16 (l % 65536) s, PrintCall.newline]

/-- Embedded from UART.h line 271:
`printHexln(const uint32_t l, bool s = 0) {printHex(l, s); println();}`.
The full 32-bit value is forwarded to the 32-bit printHex overload. -/
def printHexln_uint32 (l : Nat) (s : Bool) : List PrintCall :=
  [PrintCall.hex32 l s, PrintCall.newline]

/-- C10: printHexln on an int32_t forwards only the low 16 bits of its
argument to printHex (casting to uint16_t), unlike the uint32_t overload
which forwards the full 32-bit value; so whenever the upper 16 bits are
non-zero, the forwarded value differs from the full value — the upper
bits are not printed. -/
theorem printHexln_int32_truncates (l : Nat) (s : Bool) (hl : l < 2 ^ 32) :
    printHexln_int32 l s = [PrintCall.hex16 (l % 2 ^ 16) s, PrintCall.newline] ∧
    printHexln_uint32 l s = [PrintCall.hex32 l s, PrintCall.newline] ∧
    (2 ^ 16 ≤ l → l % 2 ^ 16 ≠ l) := by
  refine ⟨by norm_num [printHexln_int32], rfl, ?_⟩
  intro hge
  have h1 : l % 2 ^ 16 < 2 ^ 16 := Nat.mod_lt _ (by norm_num)
  omega

/-- Witness for C10 at 0x12345 = 74565: the int32 overload forwards
74565 mod 2^16 = 0x2345, losing the upper bits. -/
theorem printHexln_int32_truncates_witness :
    printHexln_int32 74565 true
      = [PrintCall.hex16 (74565 % 2 ^ 16) true, PrintCall.newline] ∧
    printHexln_uint32 74565 true
      = [PrintCall.hex32 74565 true, PrintCall.newline] ∧
    (2 ^ 16 ≤ 74565 → 74565 % 2 ^ 16 ≠ 74565) :=
  printHexln_int32_truncates 74565 true (by norm_num)
